import Mathlib

/-!
Shallow embedding of `highlighter.py` (snippet highlighter).

Python strings are modelled as `List Char`; Python `None` as `Option`;
Python floats as `ℚ` (every score in the program is a finite sum of the
literals 0.0, 1.0, 0.1 and the test weight 3.3, each accumulated by at most
one addition per position, so rational arithmetic agrees with the float
arithmetic actually performed); code that can raise returns `Except String`.
The module-level regexes `(\W)` / `\W` are modelled by character-level
splitting on the word-character class (ASCII fragment of Unicode `\w`).
-/

namespace Highlighter

/-- String abbreviation: Python (unicode) strings as lists of characters. -/
abbrev Str := List Char

/-- Convert a Lean string literal to the model type. -/
def s2l (s : String) : Str := s.toList

/-- The character class `\w` of the module's regexes (letters, digits,
underscore; ASCII fragment of the Unicode class). A character is a
separator iff it is not a word character. -/
def isWordChar (c : Char) : Bool := c.isAlphanum || c == '_'

/-- `re.split(r'(\W)', s)`: split at every separator character, keeping each
separator as its own one-character token (capturing-group semantics).
`re.split` on the empty string returns `['']`. -/
def splitCapture : Str → List Str
  | [] => [[]]
  | c :: rest =>
    let ts := splitCapture rest
    if isWordChar c then
      match ts with
      | [] => [[c]]
      | t :: ts2 => (c :: t) :: ts2
    else
      [] :: [c] :: ts

/-- `re.split(r'\W', s)`: split at every separator character, discarding the
separators (non-capturing semantics). -/
def splitNoCapture : Str → List Str
  | [] => [[]]
  | c :: rest =>
    let ts := splitNoCapture rest
    if isWordChar c then
      match ts with
      | [] => [[c]]
      | t :: ts2 => (c :: t) :: ts2
    else
      [] :: ts

/-- `tokenize(term, regex)` from highlighter.py: empty/falsy input gives `[]`,
otherwise `regex.split(term)`.  The compiled regex argument is modelled by
the corresponding splitting function. -/
def tokenize (term : Str) (split : Str → List Str) : List Str :=
  if term.isEmpty then [] else split term

/-- `_STOP_WORDS` from highlighter.py. -/
def STOP_WORDS : List Str :=
  ["i", "to", "it", "he", "she", "they", "me", "am", "is", "are", "be",
   "being", "been", "have", "has", "having", "had", "do", "does", "doing",
   "did"].map s2l

/-- `_SUFFIXES` from highlighter.py. -/
def SUFFIXES : List Str := ["s", "ed", "ing", "ly"].map s2l

/-- Python `val.lower()` (simple per-character case mapping). -/
def pyLower (cs : Str) : Str := cs.map Char.toLower

/-- Python `val.strip()`: remove whitespace from both ends. -/
def pyStrip (cs : Str) : Str :=
  ((cs.dropWhile Char.isWhitespace).reverse.dropWhile Char.isWhitespace).reverse

/-- The suffix-stripping loop of `english_suffix_stemmer`: strip the first
suffix in list order that the value ends with, then stop (`break`). -/
def stripFirstSuffix : List Str → Str → Str
  | [], val => val
  | suf :: rest, val =>
    if suf.isSuffixOf val then val.take (val.length - suf.length)
    else stripFirstSuffix rest val

/-- `english_suffix_stemmer(val)` from highlighter.py: `val or ''`, lowercase,
strip, strip at most one suffix from `_SUFFIXES`, blank out `_STOP_WORDS`
members. -/
def english_suffix_stemmer (val : Option Str) : Str :=
  let v := pyStrip (pyLower (val.getD []))
  let v := stripFirstSuffix SUFFIXES v
  if v ∈ STOP_WORDS then [] else v

/-- `build_scorecard(data, starting_score)` from highlighter.py:
`data or ''`, `starting_score or 0.0`, then one slot per character. -/
def build_scorecard (data : Option Str) (starting_score : Option ℚ) : List ℚ :=
  List.replicate (data.getD []).length (starting_score.getD 0)

/-- `index.setdefault(stem, []).append((start, end))`: append the location to
the stem's entry, creating the entry if absent.  The Python dict is modelled
as an association list in insertion order (the dict's iteration order is
unspecified; every use below is order-independent). -/
def index_insert (idx : List (Str × List (ℕ × ℕ))) (stem : Str) (loc : ℕ × ℕ) :
    List (Str × List (ℕ × ℕ)) :=
  match idx with
  | [] => [(stem, [loc])]
  | (s, locs) :: rest =>
    if s = stem then (s, locs ++ [loc]) :: rest
    else (s, locs) :: index_insert rest stem loc

/-- The token loop of `build_stem_index`: walk tokens tracking `cur_pos`;
for each truthy token whose looked-up stem is truthy (present and non-empty),
record `(cur_pos, cur_pos + len(token))` under the stem. -/
def build_stem_index_aux (stem_lookup : Str → Option Str) :
    List Str → ℕ → List (Str × List (ℕ × ℕ)) → List (Str × List (ℕ × ℕ))
  | [], _, idx => idx
  | t :: rest, cur_pos, idx =>
    let idx2 :=
      if t ≠ [] then
        match stem_lookup t with
        | some stem => if stem ≠ [] then index_insert idx stem (cur_pos, cur_pos + t.length) else idx
        | none => idx
      else idx
    build_stem_index_aux stem_lookup rest (cur_pos + t.length) idx2

/-- `build_stem_index(tokens, stem_lookup)` from highlighter.py
(`tokens or []`, `stem_lookup or {}`). -/
def build_stem_index (tokens : Option (List Str)) (stem_lookup : Option (Str → Option Str)) :
    List (Str × List (ℕ × ℕ)) :=
  build_stem_index_aux (stem_lookup.getD fun _ => none) (tokens.getD []) 0 []

/-- `scorecard[i] += score` repeated for `i in xrange(start, start + n)`;
raises IndexError when a position is out of range, exactly as Python list
indexing does (no negative index can arise: positions are naturals). -/
def bump_range (sc : List ℚ) (start n : ℕ) (score : ℚ) : Except String (List ℚ) :=
  match n with
  | 0 => .ok sc
  | m + 1 =>
    if h : start < sc.length then
      bump_range (sc.set start (sc.get ⟨start, h⟩ + score)) (start + 1) m score
    else .error "list index out of range"

/-- The inner location loop of `score_index`: the score is `score_fn(stem)`,
recomputed per location but constant since the function is pure. -/
def score_locations (sc : List ℚ) (locs : List (ℕ × ℕ)) (stemLen : ℕ) (score : ℚ) :
    Except String (List ℚ) :=
  match locs with
  | [] => .ok sc
  | (start, _) :: rest => do
    let sc2 ← bump_range sc start stemLen score
    score_locations sc2 rest stemLen score

/-- `score_index(stem_index, scorecard, score_fn)` from highlighter.py:
for each stem's locations, add `score_fn(stem)` to the `len(stem)` scorecard
positions starting at the location's start.  (The `ValueError` branch for
`None` arguments is not modelled: the embedding's arguments are total.) -/
def score_index (stem_index : List (Str × List (ℕ × ℕ))) (scorecard : List ℚ)
    (score_fn : Str → ℚ) : Except String (List ℚ) :=
  match stem_index with
  | [] => .ok scorecard
  | (stem, locs) :: rest => do
    let sc2 ← score_locations scorecard locs stem.length (score_fn stem)
    score_index rest sc2 score_fn

/-- The while loop of `get_window_scores`: while
`cur + window_size < len(scorecard)` emit
`(sum(scorecard[cur:cur+window_size]), cur, cur+window_size)` and advance
`cur` by one.  The suffix `scorecard[cur:]` is carried explicitly (so the
recursion is structural); the guard `cur + window_size < len(scorecard)` is
exactly `window_size < length(suffix)`, and `scorecard[cur:cur+window_size]`
is the suffix's first `window_size` elements. -/
def get_window_scores_go (window_size : ℕ) : List ℚ → ℕ → List (ℚ × ℕ × ℕ)
  | [], _ => []
  | x :: rtail, cur =>
    if window_size < (x :: rtail).length then
      (((x :: rtail).take window_size).sum, cur, cur + window_size) ::
        get_window_scores_go window_size rtail (cur + 1)
    else []

/-- `get_window_scores(scorecard, window_size)` from highlighter.py. -/
def get_window_scores (scorecard : List ℚ) (window_size : ℕ) : List (ℚ × ℕ × ℕ) :=
  get_window_scores_go window_size scorecard 0

/-- `data_index_to_token_index(data_index, tokens)` from highlighter.py,
with the running start offset and token counter made explicit.  Returns the
first token index whose span `[index, index + len(token)]` contains
`data_index` inclusively on both ends, or `None`. -/
def data_index_to_token_index_aux (data_index : ℕ) :
    List Str → ℕ → ℕ → Option ℕ
  | [], _, _ => none
  | t :: rest, index, token_index =>
    if index ≤ data_index ∧ data_index ≤ index + t.length then some token_index
    else data_index_to_token_index_aux data_index rest (index + t.length) (token_index + 1)

/-- `data_index_to_token_index(data_index, tokens)` from highlighter.py. -/
def data_index_to_token_index (data_index : ℕ) (tokens : List Str) : Option ℕ :=
  data_index_to_token_index_aux data_index tokens 0 0

/-- The while loop of `find_best_terminal_token`, specialised to the two
directions the guard admits (`fwd = true` for `+1`, `false` for `-1`):
while strictly between index 0 and the last index, step by the direction;
if the token stepped onto is a sentence terminal, return its index plus one
for the backward search, or the index itself for the forward search.
Each iteration moves the index one step closer to a boundary, so the loop
runs at most `len(tokens)` times; `fuel` is any upper bound on the iteration
count (the wrapper passes `len(tokens)`), making the recursion structural
without changing the value computed by the loop. -/
def terminal_walk (tokens terminals : List Str) (fwd : Bool) (maxIdx : ℕ) :
    ℕ → ℕ → ℕ
  | 0, token_index => token_index
  | fuel + 1, token_index =>
    if 0 < token_index ∧ token_index < maxIdx then
      let ti := if fwd then token_index + 1 else token_index - 1
      if tokens.getD ti [] ∈ terminals then
        if fwd then ti else ti + 1
      else terminal_walk tokens terminals fwd maxIdx fuel ti
    else token_index

/-- `find_best_terminal_token(start_index, tokens, sentence_terminals,
direction)` from highlighter.py.  Directions other than -1 and 1 raise; the
result is the (possibly `None`) token index Python would return. -/
def find_best_terminal_token (start_index : ℕ) (tokens terminals : List Str)
    (direction : ℤ) : Except String (Option ℕ) :=
  if direction = -1 ∨ direction = 1 then
    match data_index_to_token_index start_index tokens with
    | none => .ok none
    | some token_index =>
        .ok (some (terminal_walk tokens terminals (decide (direction = 1)) (tokens.length - 1)
          tokens.length token_index))
  else
    .error "Invalid direction, must be either -1 or 1"

/-- The positive-sentiment stems of `highlight_doc`:
`map(stemmer, ('love', 'awesome', 'great', 'super', 'delicious', 'best'))`. -/
def positive_stems : List Str :=
  (["love", "awesome", "great", "super", "delicious", "best"].map s2l).map
    (fun t => english_suffix_stemmer (some t))

/-- `sentence_terminals = set(('.', ';', '!', '?'))` (membership-only use, so
a list models the set extensionally). -/
def sentence_terminals : List Str := [".", ";", "!", "?"].map s2l

/-- The literal `'[[HIGHLIGHT]]'` marker. -/
def HIGHLIGHT : Str := s2l "[[HIGHLIGHT]]"

/-- The literal `'[[ENDHIGHLIGHT]]'` marker. -/
def ENDHIGHLIGHT : Str := s2l "[[ENDHIGHLIGHT]]"

/-- The literal `'...'` ellipsis marker. -/
def ELLIPSIS : Str := s2l "..."

/-- `stem_lookup = dict((token, stemmer(token)) for token in doc_tokens +
query_tokens)`, extensionally: lookup of `t` yields its stem when `t` is one
of the keys, else `None` (later duplicate keys overwrite with the identical
stem, so the dict is exactly this function). -/
def stem_lookup_get (keys : List Str) (t : Str) : Option Str :=
  if t ∈ keys then some (english_suffix_stemmer (some t)) else none

/-- `doc_tokens = tokenize(doc, _TOKENIZE_DOC_RE)`. -/
def hl_doc_tokens (doc : Str) : List Str := tokenize doc splitCapture

/-- `query_tokens = [token for token in tokenize(query, _TOKENIZE_QUERY_RE)
if token]`. -/
def hl_query_tokens (query : Str) : List Str :=
  (tokenize query splitNoCapture).filter (fun t => t ≠ [])

/-- The key list of the `stem_lookup` dict: `doc_tokens + query_tokens`. -/
def hl_keys (doc query : Str) : List Str := hl_doc_tokens doc ++ hl_query_tokens query

/-- The `stem_lookup` dict of `highlight_doc`. -/
def hl_lookup (doc query : Str) : Str → Option Str := stem_lookup_get (hl_keys doc query)

/-- `query_stems = set(stem_lookup[token] for token in query_tokens)`
(membership-only use, so a list models the set; every query token is a key,
so the `KeyError` default below is never taken). -/
def hl_query_stems (doc query : Str) : List Str :=
  (hl_query_tokens query).map (fun t => (hl_lookup doc query t).getD [])

/-- `stem_index = build_stem_index(doc_tokens, stem_lookup)`. -/
def hl_stem_index (doc query : Str) : List (Str × List (ℕ × ℕ)) :=
  build_stem_index (some (hl_doc_tokens doc)) (some (hl_lookup doc query))

/-- `query_match_score_fn = lambda stem: 1.0 if stem in query_stems else 0.0`. -/
def query_match_score_fn (qstems : List Str) (stem : Str) : ℚ :=
  if stem ∈ qstems then 1 else 0

/-- `sentiment_score_fn = lambda stem: 0.1 if stem in positive_stems else 0.0`. -/
def sentiment_score_fn (stem : Str) : ℚ :=
  if stem ∈ positive_stems then 1 / 10 else 0

/-- Steps 4-6 of `highlight_doc`: the scorecard after both scoring passes. -/
def hl_scorecard (doc query : Str) : Except String (List ℚ) := do
  let sc ← score_index (hl_stem_index doc query) (build_scorecard (some doc) (some 0))
      (query_match_score_fn (hl_query_stems doc query))
  score_index (hl_stem_index doc query) sc sentiment_score_fn

/-- Insert a window into a list already sorted by strictly descending-or-tied
score, after every window of strictly greater score and before every window
of less-or-equal score.  Since insertion proceeds from the right of the
original list (`sort_windows` below folds from the right), an inserted
window precedes every equal-scoring window that followed it originally:
exactly the placement a stable descending sort gives it. -/
def insert_desc (w : ℚ × ℕ × ℕ) : List (ℚ × ℕ × ℕ) → List (ℚ × ℕ × ℕ)
  | [] => [w]
  | x :: xs => if w.1 < x.1 then x :: insert_desc w xs else w :: x :: xs

/-- `scored_windows.sort(key=lambda item: -item[0])`: Python's `list.sort` is
a stable sort, here by ascending `-score`, i.e. stable descending-by-score.
A stable sort's output is uniquely determined by the key and the input
order, so the stable insertion sort below computes exactly the list Python's
sort produces. -/
def sort_windows : List (ℚ × ℕ × ℕ) → List (ℚ × ℕ × ℕ)
  | [] => []
  | w :: ws => insert_desc w (sort_windows ws)

/-- The ellipsis-prepend test of `highlight_doc`:
`pre_start_token = doc_tokens[starting_token_index - 1] if
starting_token_index > 1 else None`, prepend iff that token is a sentence
terminal. -/
def pre_ellipsis (tokens : List Str) (s : ℕ) : Bool :=
  decide (1 < s) && decide (tokens.getD (s - 1) [] ∈ sentence_terminals)

/-- The ellipsis-append test of `highlight_doc`:
`post_end_token = doc_tokens[ending_token_index + 1] if ending_token_index <
len(doc_tokens) - 1 else None`, append iff that token exists and is not a
sentence terminal. -/
def post_ellipsis (tokens : List Str) (e : ℕ) : Bool :=
  decide (e + 1 < tokens.length) && decide (tokens.getD (e + 1) [] ∉ sentence_terminals)

/-- One iteration of the markup loop: `stem_lookup.get(token)` compared
against `query_stems` (`None` is never a member of a set of strings). -/
def markup_one (lookup : Str → Option Str) (qstems : List Str) (t : Str) : List Str :=
  match lookup t with
  | some s => if s ∈ qstems then [HIGHLIGHT, t, ENDHIGHLIGHT] else [t]
  | none => [t]

/-- The `markup_buffer` produced by the markup loop over a token range. -/
def markup_buffer (lookup : Str → Option Str) (qstems : List Str)
    (tokens : List Str) : List Str :=
  (tokens.map (markup_one lookup qstems)).flatten

/-- The snippet's token range with ellipses: steps 8-11 of `highlight_doc`
once the token boundary indices `s` and `e` have been found. -/
def hl_token_range (tokens : List Str) (s e : ℕ) : List Str :=
  let range0 := (tokens.drop s).take (e + 1 - s)
  let range1 := if pre_ellipsis tokens s then ELLIPSIS :: range0 else range0
  if post_ellipsis tokens e then range1 ++ [ELLIPSIS] else range1

/-- `highlight_doc(doc, query)` from highlighter.py.  `.error` marks the
places where the Python code raises, propagated in evaluation order:
an out-of-range scorecard write inside `score_index`, `scored_windows[0]`
on an empty window list, an invalid direction inside
`find_best_terminal_token` (never taken: the literals -1 and 1 are passed),
and arithmetic on a `None` token index (unreachable for the offsets the
window selector produces, as proved below). -/
def highlight_doc (doc query : Str) : Except String Str :=
  match hl_scorecard doc query with
  | .error err => .error err
  | .ok scorecard =>
    match sort_windows (get_window_scores scorecard 20) with
    | [] => .error "list index out of range"
    | top :: _ =>
      match find_best_terminal_token top.2.1 (hl_doc_tokens doc) sentence_terminals (-1),
          find_best_terminal_token top.2.2 (hl_doc_tokens doc) sentence_terminals 1 with
      | .error err, _ => .error err
      | .ok _, .error err => .error err
      | .ok (some s), .ok (some e) =>
          .ok ((markup_buffer (hl_lookup doc query) (hl_query_stems doc query)
            (hl_token_range (hl_doc_tokens doc) s e)).flatten)
      | _, _ => .error "TypeError"

/-! ### Specification-side definitions (written from the spec's words, to be
compared with the definitions above, which are written from the source) -/

/-- The stemming procedure exactly as the specification words it: treat a
missing value as the empty string; lowercase and trim; strip the first
suffix among 's', 'ed', 'ing', 'ly' (checked in that order) that the string
ends with, with no cascading removal; finally return the empty string if the
result is in the fixed stop-word set, otherwise the result. -/
def stemmer_spec (val : Option Str) : Str :=
  let v := pyStrip (pyLower (val.getD []))
  let v2 :=
    match (["s", "ed", "ing", "ly"].map s2l).find? (fun suf => suf.isSuffixOf v) with
    | some suf => v.take (v.length - suf.length)
    | none => v
  if v2 ∈ (["i", "to", "it", "he", "she", "they", "me", "am", "is", "are", "be",
      "being", "been", "have", "has", "having", "had", "do", "does", "doing",
      "did"].map s2l) then [] else v2

/-- The character offset at which token `i` starts in the reconstructed
text (the sum of the lengths of the preceding tokens). -/
def token_start (tokens : List Str) (i : ℕ) : ℕ :=
  ((tokens.take i).map List.length).sum

/-- Offset-to-token-index conversion as the claim words it, generalised by a
base offset: the first token index `i` whose span
`[base + start_i, base + start_i + len_i]`, inclusive on both ends, contains
the offset. -/
def enclosing_from (data_index base : ℕ) (tokens : List Str) : Option ℕ :=
  (List.range tokens.length).find?
    (fun i => decide (base + token_start tokens i ≤ data_index ∧
      data_index ≤ base + token_start tokens i + (tokens.getD i []).length))

/-- Offset-to-token-index conversion as the claim words it: the first token
whose span contains the offset, inclusive on both ends. -/
def enclosing_token_spec (data_index : ℕ) (tokens : List Str) : Option ℕ :=
  enclosing_from data_index 0 tokens

/-- The forward boundary search as the claim words it: starting from the
enclosing token index, if already at a sequence boundary stay there;
otherwise the first later token (up to and including the last index) that is
a sentence terminal gives the result — the found terminal's own index — and
if none exists the last index is the result. -/
def walk_spec_fwd (tokens terminals : List Str) (t0 : ℕ) : ℕ :=
  let maxI := tokens.length - 1
  if t0 = 0 ∨ maxI ≤ t0 then t0
  else
    match (List.range' (t0 + 1) (maxI - t0)).find?
        (fun j => decide (tokens.getD j [] ∈ terminals)) with
    | some j => j
    | none => maxI

/-- The backward boundary search as the claim words it: starting from the
enclosing token index, if already at a sequence boundary stay there;
otherwise the nearest earlier token that is a sentence terminal gives the
result — the index immediately after the found terminal — and if none exists
the result is index 0. -/
def walk_spec_bwd (tokens terminals : List Str) (t0 : ℕ) : ℕ :=
  let maxI := tokens.length - 1
  if t0 = 0 ∨ maxI ≤ t0 then t0
  else
    match (List.range t0).reverse.find?
        (fun j => decide (tokens.getD j [] ∈ terminals)) with
    | some j => j + 1
    | none => 0

/-! ### Tokenizer lemmas -/

theorem except_ok_bind {e a b : Type} (x : a) (f : a → Except e b) :
    (Except.ok x >>= f) = f x := rfl

theorem splitCapture_ne_nil (cs : Str) : splitCapture cs ≠ [] := by
  match cs with
  | [] => simp [splitCapture]
  | c :: rest =>
    simp only [splitCapture]
    by_cases hw : isWordChar c
    · simp only [hw, if_true]
      match h : splitCapture rest with
      | [] => simp
      | t :: ts2 => simp
    · simp [hw]

theorem splitCapture_flatten (cs : Str) : (splitCapture cs).flatten = cs := by
  induction cs with
  | nil => rfl
  | cons c rest ih =>
    simp only [splitCapture]
    by_cases hw : isWordChar c
    · simp only [hw, if_true]
      match h : splitCapture rest with
      | [] => exact absurd h (splitCapture_ne_nil rest)
      | t :: ts2 =>
        rw [h] at ih
        simp only [List.flatten_cons] at ih ⊢
        simp [ih]
    · simp only [hw, Bool.false_eq_true, if_false]
      simp [ih]

/-- The first token of a capturing split consists of word characters only
(it is the run of word characters before the first separator). -/
theorem splitCapture_head_word (cs : Str) :
    ∀ ch ∈ (splitCapture cs).headD [], isWordChar ch := by
  induction cs with
  | nil => simp [splitCapture]
  | cons c rest ih =>
    simp only [splitCapture]
    by_cases hw : isWordChar c
    · simp only [hw, if_true]
      match h : splitCapture rest with
      | [] => exact absurd h (splitCapture_ne_nil rest)
      | t :: ts2 =>
        rw [h] at ih
        simp only [List.headD_cons] at ih ⊢
        intro ch hch
        rcases List.mem_cons.mp hch with rfl | hch
        · exact hw
        · exact ih ch hch
    · simp [hw]

/-- Every token of a capturing split is either a run of word characters or a
single separator character. -/
theorem splitCapture_token_shape (cs : Str) :
    ∀ t ∈ splitCapture cs,
      (∀ ch ∈ t, isWordChar ch) ∨ (∃ ch, t = [ch] ∧ ¬ isWordChar ch) := by
  induction cs with
  | nil => simp [splitCapture]
  | cons c rest ih =>
    simp only [splitCapture]
    by_cases hw : isWordChar c
    · simp only [hw, if_true]
      match h : splitCapture rest with
      | [] => exact absurd h (splitCapture_ne_nil rest)
      | t :: ts2 =>
        rw [h] at ih
        have hhead : ∀ ch ∈ t, isWordChar ch := by
          have := splitCapture_head_word rest
          rw [h] at this
          simpa using this
        intro u hu
        rcases List.mem_cons.mp hu with rfl | hu
        · left
          intro ch hch
          rcases List.mem_cons.mp hch with rfl | hch
          · exact hw
          · exact hhead ch hch
        · exact ih u (List.mem_cons_of_mem _ hu)
    · simp only [hw, Bool.false_eq_true, if_false]
      intro u hu
      rcases List.mem_cons.mp hu with rfl | hu
      · left; simp
      · rcases List.mem_cons.mp hu with rfl | hu
        · right; exact ⟨c, rfl, by simp [hw]⟩
        · exact ih u hu

/-- C3: For every document string, concatenating in order all tokens produced
by the document tokenizer (`tokenize` with the separator-capturing pattern)
reproduces the original document exactly. -/
theorem C3_tokenize_doc_lossless (doc : Str) :
    (tokenize doc splitCapture).flatten = doc := by
  match doc with
  | [] => rfl
  | c :: rest =>
    simp only [tokenize, List.isEmpty_cons, Bool.false_eq_true, if_false]
    exact splitCapture_flatten (c :: rest)

/-! ### Stemmer lemmas -/

theorem stripFirstSuffix_eq_find (l : List Str) (v : Str) :
    stripFirstSuffix l v =
      match l.find? (fun suf => suf.isSuffixOf v) with
      | some suf => v.take (v.length - suf.length)
      | none => v := by
  induction l with
  | nil => rfl
  | cons suf rest ih =>
    simp only [stripFirstSuffix, List.find?]
    by_cases h : suf.isSuffixOf v <;> simp [h, ih]

/-- C6: `english_suffix_stemmer` computes exactly the procedure described by
the claim: null becomes empty, lowercase and trim, strip at most the first
matching suffix of 's', 'ed', 'ing', 'ly' in that order, then map members of
the fixed stop-word set to the empty string. -/
theorem C6_stemmer_refines_spec (val : Option Str) :
    english_suffix_stemmer val = stemmer_spec val := by
  simp only [english_suffix_stemmer, stemmer_spec, SUFFIXES, STOP_WORDS,
    stripFirstSuffix_eq_find]

theorem pyStrip_length_le (cs : Str) : (pyStrip cs).length ≤ cs.length := by
  unfold pyStrip
  calc ((cs.dropWhile Char.isWhitespace).reverse.dropWhile Char.isWhitespace).reverse.length
      = ((cs.dropWhile Char.isWhitespace).reverse.dropWhile Char.isWhitespace).length := by
        rw [List.length_reverse]
    _ ≤ (cs.dropWhile Char.isWhitespace).reverse.length :=
        (List.dropWhile_sublist _).length_le
    _ = (cs.dropWhile Char.isWhitespace).length := by rw [List.length_reverse]
    _ ≤ cs.length := (List.dropWhile_sublist _).length_le

theorem stripFirstSuffix_length_le (l : List Str) (v : Str) :
    (stripFirstSuffix l v).length ≤ v.length := by
  induction l with
  | nil => exact le_refl _
  | cons suf rest ih =>
    simp only [stripFirstSuffix]
    by_cases h : suf.isSuffixOf v
    · simp [h]
    · simpa [h] using ih

/-- A stem is never longer than the token it was derived from. -/
theorem stemmer_length_le (t : Str) :
    (english_suffix_stemmer (some t)).length ≤ t.length := by
  show (let v := pyStrip (pyLower (Option.getD (some t) []));
    let v2 := stripFirstSuffix SUFFIXES v;
    if v2 ∈ STOP_WORDS then [] else v2).length ≤ t.length
  simp only [Option.getD_some]
  by_cases h : stripFirstSuffix SUFFIXES (pyStrip (pyLower t)) ∈ STOP_WORDS
  · simp [h]
  · simp only [h, if_false]
    calc (stripFirstSuffix SUFFIXES (pyStrip (pyLower t))).length
        ≤ (pyStrip (pyLower t)).length := stripFirstSuffix_length_le _ _
      _ ≤ (pyLower t).length := pyStrip_length_le _
      _ = t.length := by simp [pyLower]

/-! ### Window selector lemmas -/

theorem get_window_scores_go_eq (window_size : ℕ) (r : List ℚ) (cur : ℕ) :
    get_window_scores_go window_size r cur =
      (List.range (r.length - window_size)).map
        (fun k => (((r.drop k).take window_size).sum, cur + k, cur + k + window_size)) := by
  induction r generalizing cur with
  | nil => simp [get_window_scores_go]
  | cons x rtail ih =>
    simp only [get_window_scores_go]
    by_cases h : window_size < (x :: rtail).length
    · simp only [h, if_true, ih]
      have hlen : (x :: rtail).length - window_size = (rtail.length - window_size) + 1 := by
        simp only [List.length_cons] at h ⊢
        omega
      rw [hlen, List.range_succ_eq_map]
      simp only [List.map_cons, List.map_map]
      refine congrArg₂ _ (by simp) ?_
      apply List.map_congr_left
      intro k hk
      simp only [Function.comp_apply, List.drop_succ_cons, Prod.mk.injEq, Nat.succ_eq_add_one,
        true_and, and_true]
      omega
    · simp only [h, if_false]
      have hlen : rtail.length + 1 - window_size = 0 := by
        simp only [List.length_cons] at h
        omega
      simp [hlen]

theorem get_window_scores_eq (sc : List ℚ) (ws : ℕ) :
    get_window_scores sc ws =
      (List.range (sc.length - ws)).map
        (fun k => (((sc.drop k).take ws).sum, k, k + ws)) := by
  unfold get_window_scores
  rw [get_window_scores_go_eq]
  simp

/-- C7: `get_window_scores` generates one window per consecutive start offset
from 0 exactly while `end = start + window_size` is strictly less than the
scorecard length (the window whose end equals the scorecard length is never
generated), and it produces no windows at all when the scorecard length is
at most the window size. -/
theorem C7_window_generation (sc : List ℚ) (ws : ℕ) :
    get_window_scores sc ws =
        (List.range (sc.length - ws)).map
          (fun k => (((sc.drop k).take ws).sum, k, k + ws)) ∧
      (∀ w ∈ get_window_scores sc ws, w.2.2 < sc.length) ∧
      (sc.length ≤ ws → get_window_scores sc ws = []) := by
  refine ⟨get_window_scores_eq sc ws, ?_, ?_⟩
  · intro w hw
    rw [get_window_scores_eq] at hw
    obtain ⟨k, hk, rfl⟩ := List.mem_map.mp hw
    simp only [List.mem_range] at hk
    simp only []
    omega
  · intro h
    rw [get_window_scores_eq]
    have h0 : sc.length - ws = 0 := by omega
    simp [h0]

/-- Witness for C7 at concrete inputs. -/
theorem C7_window_generation_witness :
    get_window_scores [1, 2, 3] 2 = [((3 : ℚ), 0, 2)] ∧
      (((3 : ℚ), 0, 2)).2.2 < ([1, 2, 3] : List ℚ).length ∧
      get_window_scores [1, 2] 2 = [] :=
  ⟨by with_unfolding_all rfl,
   (C7_window_generation [1, 2, 3] 2).2.1 ((3 : ℚ), 0, 2)
     (by rw [show get_window_scores [1, 2, 3] 2 = [((3 : ℚ), 0, 2)] from by
        with_unfolding_all rfl]; exact List.mem_singleton_self _),
   (C7_window_generation [1, 2] 2).2.2 (by simp)⟩

theorem insert_desc_ne_nil (w : ℚ × ℕ × ℕ) (l : List (ℚ × ℕ × ℕ)) :
    insert_desc w l ≠ [] := by
  match l with
  | [] => simp [insert_desc]
  | x :: xs =>
    simp only [insert_desc]
    by_cases h : w.1 < x.1 <;> simp [h]

theorem sort_windows_eq_nil_iff (l : List (ℚ × ℕ × ℕ)) :
    sort_windows l = [] ↔ l = [] := by
  match l with
  | [] => simp [sort_windows]
  | w :: ws =>
    simp only [sort_windows]
    exact ⟨fun h => absurd h (insert_desc_ne_nil w (sort_windows ws)), fun h => by simp at h⟩

/-- The head of the stable descending sort is the leftmost maximum: the input
splits as `l1 ++ top :: l2` with every element of `l1` scoring strictly below
`top`, and `top`'s score bounds every element's score. -/
theorem sort_windows_head_leftmost (l : List (ℚ × ℕ × ℕ)) (top : ℚ × ℕ × ℕ)
    (rest : List (ℚ × ℕ × ℕ)) (h : sort_windows l = top :: rest) :
    (∃ l1 l2, l = l1 ++ top :: l2 ∧ ∀ w ∈ l1, w.1 < top.1) ∧
      ∀ w ∈ l, w.1 ≤ top.1 := by
  induction l generalizing top rest with
  | nil => simp [sort_windows] at h
  | cons w ws ih =>
    simp only [sort_windows] at h
    match hs : sort_windows ws with
    | [] =>
      have hws : ws = [] := (sort_windows_eq_nil_iff ws).mp hs
      rw [hs] at h
      simp only [insert_desc, List.cons.injEq, and_true] at h
      obtain ⟨rfl, rfl⟩ := h
      subst hws
      exact ⟨⟨[], [], by simp, by simp⟩, by simp⟩
    | t :: r =>
      rw [hs] at h
      have iht := ih t r hs
      simp only [insert_desc] at h
      by_cases hlt : w.1 < t.1
      · rw [if_pos hlt] at h
        obtain ⟨rfl, -⟩ := List.cons.injEq .. ▸ (List.cons.inj h)
        obtain ⟨⟨l1, l2, hsplit, hl1⟩, hall⟩ := iht
        refine ⟨⟨w :: l1, l2, by rw [List.cons_append, hsplit], ?_⟩, ?_⟩
        · intro u hu
          rcases List.mem_cons.mp hu with rfl | hu
          · exact hlt
          · exact hl1 u hu
        · intro u hu
          rcases List.mem_cons.mp hu with rfl | hu
          · exact le_of_lt hlt
          · exact hall u hu
      · rw [if_neg hlt] at h
        obtain ⟨rfl, -⟩ := List.cons.inj h
        obtain ⟨-, hall⟩ := iht
        refine ⟨⟨[], ws, by simp, by simp⟩, ?_⟩
        intro u hu
        rcases List.mem_cons.mp hu with rfl | hu
        · exact le_refl _
        · exact le_trans (hall u hu) (not_lt.mp hlt)

/-- C2: whenever `get_window_scores` produces at least one window, the window
selected by `highlight_doc` (the head of the stable descending sort of the
window list) has score greater than or equal to every generated window's
score, and among equal-scoring windows it has the lowest start offset — the
first generated one. -/
theorem C2_selected_window_maximal (sc : List ℚ) (ws : ℕ)
    (top : ℚ × ℕ × ℕ) (rest : List (ℚ × ℕ × ℕ))
    (h : sort_windows (get_window_scores sc ws) = top :: rest) :
    (∀ w ∈ get_window_scores sc ws, w.1 ≤ top.1) ∧
      (∀ w ∈ get_window_scores sc ws, w.1 = top.1 → top.2.1 ≤ w.2.1) := by
  obtain ⟨⟨l1, l2, hsplit, hl1⟩, hall⟩ :=
    sort_windows_head_leftmost (get_window_scores sc ws) top rest h
  refine ⟨hall, ?_⟩
  have hpair : (get_window_scores sc ws).Pairwise (fun a b => a.2.1 < b.2.1) := by
    rw [get_window_scores_eq]
    exact (List.pairwise_lt_range _).map _ (fun a b hab => by simpa using hab)
  rw [hsplit] at hpair
  have hl2 : ∀ u ∈ l2, top.2.1 < u.2.1 :=
    (List.pairwise_cons.mp (List.pairwise_append.mp hpair).2.1).1
  intro w hw heq
  rw [hsplit] at hw
  rcases List.mem_append.mp hw with hw1 | hw2
  · exact absurd heq (ne_of_lt (hl1 w hw1))
  · rcases List.mem_cons.mp hw2 with rfl | hw2
    · exact le_refl _
    · exact le_of_lt (hl2 w hw2)

/-- Witness for C2 at a concrete scorecard with a score tie: the two tied
windows are `(0, 0, 2)` and `(0, 1, 3)`, and the selected one is the first
generated. -/
theorem C2_selected_window_maximal_witness :
    (∀ w ∈ get_window_scores [0, 0, 0, 0] 2, w.1 ≤ ((0 : ℚ), 0, 2).1) ∧
      (∀ w ∈ get_window_scores [0, 0, 0, 0] 2,
        w.1 = ((0 : ℚ), 0, 2).1 → ((0 : ℚ), 0, 2).2.1 ≤ w.2.1) :=
  C2_selected_window_maximal [0, 0, 0, 0] 2 ((0 : ℚ), 0, 2) [((0 : ℚ), 1, 3)]
    (by with_unfolding_all rfl)

/-! ### Boundary extender lemmas -/

theorem token_start_cons_succ (t : Str) (rest : List Str) (j : ℕ) :
    token_start (t :: rest) (j + 1) = t.length + token_start rest j := by
  simp [token_start, List.take_succ_cons]

theorem d2t_aux_eq_enclosing (tokens : List Str) :
    ∀ (d base k : ℕ),
      data_index_to_token_index_aux d tokens base k =
        (enclosing_from d base tokens).map (k + ·) := by
  induction tokens with
  | nil => intro d base k; rfl
  | cons t rest ih =>
    intro d base k
    simp only [data_index_to_token_index_aux]
    unfold enclosing_from
    rw [List.length_cons, List.range_succ_eq_map]
    by_cases hc : base ≤ d ∧ d ≤ base + t.length
    · rw [if_pos hc, List.find?_cons_of_pos _ (by simpa [token_start] using hc)]
      simp
    · rw [if_neg hc, List.find?_cons_of_neg _ (by simpa [token_start] using hc)]
      rw [List.find?_map]
      have hp : ((fun i => decide (base + token_start (t :: rest) i ≤ d ∧
            d ≤ base + token_start (t :: rest) i + ((t :: rest).getD i []).length)) ∘ Nat.succ) =
          (fun j => decide (base + t.length + token_start rest j ≤ d ∧
            d ≤ base + t.length + token_start rest j + (rest.getD j []).length)) := by
        funext j
        simp [token_start_cons_succ, Nat.add_assoc]
      rw [hp, ih d (base + t.length) (k + 1)]
      unfold enclosing_from
      cases (List.range rest.length).find?
          (fun j => decide (base + t.length + token_start rest j ≤ d ∧
            d ≤ base + t.length + token_start rest j + (rest.getD j []).length)) with
      | none => rfl
      | some j => simp [Option.map_map]; omega

theorem data_index_to_token_index_eq (d : ℕ) (tokens : List Str) :
    data_index_to_token_index d tokens = enclosing_token_spec d tokens := by
  unfold data_index_to_token_index enclosing_token_spec
  rw [d2t_aux_eq_enclosing]
  cases enclosing_from d 0 tokens <;> simp

theorem enclosing_lt_length {d : ℕ} {tokens : List Str} {i : ℕ}
    (h : enclosing_token_spec d tokens = some i) : i < tokens.length :=
  List.mem_range.mp (List.mem_of_find?_eq_some h)

theorem terminal_walk_fwd_eq (tokens terminals : List Str) :
    ∀ (fuel t0 : ℕ), (tokens.length - 1) - t0 ≤ fuel →
      terminal_walk tokens terminals true (tokens.length - 1) fuel t0 =
        walk_spec_fwd tokens terminals t0 := by
  intro fuel
  induction fuel with
  | zero =>
    intro t0 h
    have hle : tokens.length - 1 ≤ t0 := by omega
    simp only [terminal_walk, walk_spec_fwd]
    rw [if_pos (Or.inr hle)]
  | succ fuel ih =>
    intro t0 h
    simp only [terminal_walk, walk_spec_fwd]
    by_cases hg : 0 < t0 ∧ t0 < tokens.length - 1
    · rw [if_pos hg, if_neg (show ¬(t0 = 0 ∨ tokens.length - 1 ≤ t0) by omega)]
      simp only [if_true]
      have hcnt : tokens.length - 1 - t0 = (tokens.length - 1 - (t0 + 1)) + 1 := by omega
      rw [hcnt, List.range'_succ]
      by_cases hterm : tokens.getD (t0 + 1) [] ∈ terminals
      · rw [if_pos hterm, List.find?_cons_of_pos _ (by simpa using hterm)]
      · rw [if_neg hterm, List.find?_cons_of_neg _ (by simpa using hterm)]
        rw [ih (t0 + 1) (by omega)]
        simp only [walk_spec_fwd]
        by_cases hend : tokens.length - 1 ≤ t0 + 1
        · rw [if_pos (Or.inr hend)]
          have hmax : tokens.length - 1 = t0 + 1 := by omega
          have hcnt2 : tokens.length - 1 - (t0 + 1) = 0 := by omega
          rw [hcnt2]
          simp [hmax]
        · rw [if_neg (show ¬(t0 + 1 = 0 ∨ tokens.length - 1 ≤ t0 + 1) by omega)]
    · rw [if_neg hg, if_pos (show t0 = 0 ∨ tokens.length - 1 ≤ t0 by omega)]

theorem terminal_walk_bwd_eq (tokens terminals : List Str) :
    ∀ (fuel t0 : ℕ), t0 ≤ fuel →
      terminal_walk tokens terminals false (tokens.length - 1) fuel t0 =
        walk_spec_bwd tokens terminals t0 := by
  intro fuel
  induction fuel with
  | zero =>
    intro t0 h
    have ht0 : t0 = 0 := by omega
    simp only [terminal_walk, walk_spec_bwd]
    rw [if_pos (Or.inl ht0)]
  | succ fuel ih =>
    intro t0 h
    simp only [terminal_walk, walk_spec_bwd]
    by_cases hg : 0 < t0 ∧ t0 < tokens.length - 1
    · rw [if_pos hg, if_neg (show ¬(t0 = 0 ∨ tokens.length - 1 ≤ t0) by omega)]
      simp only [Bool.false_eq_true, if_false]
      have hrange : List.range t0 = List.range (t0 - 1) ++ [t0 - 1] := by
        have : t0 = (t0 - 1) + 1 := by omega
        rw [this, List.range_succ]
        simp
      rw [hrange, List.reverse_append]
      simp only [List.reverse_cons, List.reverse_nil, List.nil_append, List.singleton_append]
      by_cases hterm : tokens.getD (t0 - 1) [] ∈ terminals
      · rw [if_pos hterm, List.find?_cons_of_pos _ (by simpa using hterm)]
      · rw [if_neg hterm, List.find?_cons_of_neg _ (by simpa using hterm)]
        rw [ih (t0 - 1) (by omega)]
        simp only [walk_spec_bwd]
        by_cases hzero : t0 - 1 = 0
        · rw [if_pos (Or.inl hzero)]
          rw [hzero]
          simp
        · rw [if_neg (show ¬(t0 - 1 = 0 ∨ tokens.length - 1 ≤ t0 - 1) by omega)]
    · rw [if_neg hg, if_pos (show t0 = 0 ∨ tokens.length - 1 ≤ t0 by omega)]

theorem find_best_bwd_eq (start_index : ℕ) (tokens terminals : List Str) :
    find_best_terminal_token start_index tokens terminals (-1) =
      .ok ((enclosing_token_spec start_index tokens).map (walk_spec_bwd tokens terminals)) := by
  unfold find_best_terminal_token
  rw [if_pos (Or.inl rfl), data_index_to_token_index_eq]
  cases he : enclosing_token_spec start_index tokens with
  | none => rfl
  | some t0 =>
    have ht0 : t0 < tokens.length := enclosing_lt_length he
    have hw := terminal_walk_bwd_eq tokens terminals tokens.length t0 (by omega)
    simp only [Option.map]
    norm_num
    exact hw

theorem find_best_fwd_eq (start_index : ℕ) (tokens terminals : List Str) :
    find_best_terminal_token start_index tokens terminals 1 =
      .ok ((enclosing_token_spec start_index tokens).map (walk_spec_fwd tokens terminals)) := by
  unfold find_best_terminal_token
  rw [if_pos (Or.inr rfl), data_index_to_token_index_eq]
  cases he : enclosing_token_spec start_index tokens with
  | none => rfl
  | some t0 =>
    have ht0 : t0 < tokens.length := enclosing_lt_length he
    have hw := terminal_walk_fwd_eq tokens terminals tokens.length t0 (by omega)
    simp only [Option.map]
    norm_num
    exact hw

/-- C9: `find_best_terminal_token` converts the character offset to the
enclosing token index — the first token whose span contains the offset,
inclusive on both ends — and walks token-by-token in the given direction
until a token in the terminal set or a sequence boundary (index 0 or the
last index) is reached: a backward search (direction -1) returns the index
immediately after a found terminal, a forward search (direction +1) returns
the found terminal's own index, and any direction other than -1 or +1 raises
immediately. -/
theorem C9_find_best_terminal_token_spec (start_index : ℕ)
    (tokens terminals : List Str) (direction : ℤ) :
    (direction ≠ -1 → direction ≠ 1 →
        find_best_terminal_token start_index tokens terminals direction =
          .error "Invalid direction, must be either -1 or 1") ∧
      data_index_to_token_index start_index tokens =
        enclosing_token_spec start_index tokens ∧
      find_best_terminal_token start_index tokens terminals (-1) =
        .ok ((enclosing_token_spec start_index tokens).map (walk_spec_bwd tokens terminals)) ∧
      find_best_terminal_token start_index tokens terminals 1 =
        .ok ((enclosing_token_spec start_index tokens).map (walk_spec_fwd tokens terminals)) := by
  refine ⟨?_, data_index_to_token_index_eq start_index tokens,
    find_best_bwd_eq start_index tokens terminals,
    find_best_fwd_eq start_index tokens terminals⟩
  intro h1 h2
  unfold find_best_terminal_token
  rw [if_neg (by simp [h1, h2])]

/-- Witness for C9: direction 2 raises at a concrete call. -/
theorem C9_find_best_terminal_token_spec_witness :
    find_best_terminal_token 0 [s2l "ab"] sentence_terminals 2 =
      .error "Invalid direction, must be either -1 or 1" :=
  (C9_find_best_terminal_token_spec 0 [s2l "ab"] sentence_terminals 2).1
    (by decide) (by decide)

/-! ### Scorecard safety lemmas -/

theorem index_insert_bounded {idx : List (Str × List (ℕ × ℕ))} {bound : ℕ}
    (h : ∀ p ∈ idx, ∀ loc ∈ p.2, loc.1 + p.1.length ≤ bound)
    {stem : Str} {loc : ℕ × ℕ} (hloc : loc.1 + stem.length ≤ bound) :
    ∀ p ∈ index_insert idx stem loc, ∀ l ∈ p.2, l.1 + p.1.length ≤ bound := by
  induction idx with
  | nil =>
    intro p hp l hl
    simp only [index_insert, List.mem_singleton] at hp
    subst hp
    simp only [List.mem_singleton] at hl
    subst hl
    exact hloc
  | cons q rest ih =>
    obtain ⟨s, locs⟩ := q
    intro p hp l hl
    simp only [index_insert] at hp
    by_cases heq : s = stem
    · rw [if_pos heq] at hp
      rcases List.mem_cons.mp hp with rfl | hp
      · rcases List.mem_append.mp hl with hl | hl
        · exact h (s, locs) (List.mem_cons_self _ _) l hl
        · simp only [List.mem_singleton] at hl
          subst hl
          subst heq
          exact hloc
      · exact h p (List.mem_cons_of_mem _ hp) l hl
    · rw [if_neg heq] at hp
      rcases List.mem_cons.mp hp with rfl | hp
      · exact h (s, locs) (List.mem_cons_self _ _) l hl
      · exact ih (fun u hu => h u (List.mem_cons_of_mem _ hu)) p hp l hl

theorem build_stem_index_aux_bounded (lookup : Str → Option Str)
    (hlk : ∀ t s, lookup t = some s → s.length ≤ t.length) :
    ∀ (tokens : List Str) (cur : ℕ) (idx : List (Str × List (ℕ × ℕ))) (bound : ℕ),
      (∀ p ∈ idx, ∀ loc ∈ p.2, loc.1 + p.1.length ≤ bound) →
      cur + (tokens.map List.length).sum ≤ bound →
      ∀ p ∈ build_stem_index_aux lookup tokens cur idx, ∀ loc ∈ p.2,
        loc.1 + p.1.length ≤ bound := by
  intro tokens
  induction tokens with
  | nil =>
    intro cur idx bound hidx _
    exact hidx
  | cons t rest ih =>
    intro cur idx bound hidx hsum
    simp only [List.map_cons, List.sum_cons] at hsum
    simp only [build_stem_index_aux]
    refine ih (cur + t.length) _ bound ?_ (by omega)
    by_cases ht : t ≠ []
    · rw [if_pos ht]
      cases hlu : lookup t with
      | none => simp only [hlu]; exact hidx
      | some stem =>
        simp only [hlu]
        by_cases hst : stem ≠ []
        · rw [if_pos hst]
          refine index_insert_bounded hidx ?_
          have := hlk t stem hlu
          omega
        · rw [if_neg hst]
          exact hidx
    · rw [if_neg ht]
      exact hidx

theorem bump_range_ok (score : ℚ) :
    ∀ (n : ℕ) (sc : List ℚ) (start : ℕ), start + n ≤ sc.length →
      ∃ sc2, bump_range sc start n score = .ok sc2 ∧ sc2.length = sc.length := by
  intro n
  induction n with
  | zero =>
    intro sc start _
    exact ⟨sc, rfl, rfl⟩
  | succ m ih =>
    intro sc start h
    have hlt : start < sc.length := by omega
    obtain ⟨sc2, h1, h2⟩ := ih (sc.set start (sc.get ⟨start, hlt⟩ + score)) (start + 1)
      (by simp only [List.length_set]; omega)
    refine ⟨sc2, ?_, ?_⟩
    · simp only [bump_range, dif_pos hlt]
      exact h1
    · rw [h2, List.length_set]

theorem score_locations_ok (stemLen : ℕ) (score : ℚ) :
    ∀ (locs : List (ℕ × ℕ)) (sc : List ℚ),
      (∀ loc ∈ locs, loc.1 + stemLen ≤ sc.length) →
      ∃ sc2, score_locations sc locs stemLen score = .ok sc2 ∧ sc2.length = sc.length := by
  intro locs
  induction locs with
  | nil =>
    intro sc _
    exact ⟨sc, rfl, rfl⟩
  | cons loc rest ih =>
    obtain ⟨start, e⟩ := loc
    intro sc hb
    obtain ⟨sc1, h1, hl1⟩ := bump_range_ok score stemLen sc start
      (hb (start, e) (List.mem_cons_self _ _))
    obtain ⟨sc2, h2, hl2⟩ := ih sc1
      (fun l hl => hl1 ▸ hb l (List.mem_cons_of_mem _ hl))
    refine ⟨sc2, ?_, hl2.trans hl1⟩
    simp only [score_locations, h1]
    exact h2

theorem score_index_ok (score_fn : Str → ℚ) :
    ∀ (idx : List (Str × List (ℕ × ℕ))) (sc : List ℚ),
      (∀ p ∈ idx, ∀ loc ∈ p.2, loc.1 + p.1.length ≤ sc.length) →
      ∃ sc2, score_index idx sc score_fn = .ok sc2 ∧ sc2.length = sc.length := by
  intro idx
  induction idx with
  | nil =>
    intro sc _
    exact ⟨sc, rfl, rfl⟩
  | cons p rest ih =>
    obtain ⟨stem, locs⟩ := p
    intro sc hb
    obtain ⟨sc1, h1, hl1⟩ := score_locations_ok stem.length (score_fn stem) locs sc
      (fun loc hloc => hb (stem, locs) (List.mem_cons_self _ _) loc hloc)
    obtain ⟨sc2, h2, hl2⟩ := ih sc1
      (fun q hq loc hloc => hl1 ▸ hb q (List.mem_cons_of_mem _ hq) loc hloc)
    refine ⟨sc2, ?_, hl2.trans hl1⟩
    simp only [score_index, h1]
    exact h2

/-- Every location of the pipeline's stem index fits in the document:
`start + len(stem) ≤ len(doc)`. -/
theorem hl_stem_index_bounded (doc query : Str) :
    ∀ p ∈ hl_stem_index doc query, ∀ loc ∈ p.2, loc.1 + p.1.length ≤ doc.length := by
  unfold hl_stem_index build_stem_index
  refine build_stem_index_aux_bounded _ ?_ (hl_doc_tokens doc) 0 [] doc.length
    (by simp) ?_
  · intro t s hs
    simp only [Option.getD_some] at hs
    unfold hl_lookup stem_lookup_get at hs
    by_cases hm : t ∈ hl_keys doc query
    · rw [if_pos hm] at hs
      cases hs
      exact stemmer_length_le t
    · rw [if_neg hm] at hs
      cases hs
  · have : ((hl_doc_tokens doc).map List.length).sum = ((hl_doc_tokens doc).flatten).length := by
      rw [List.length_flatten]
    rw [Nat.zero_add, this]
    unfold hl_doc_tokens
    rw [C3_tokenize_doc_lossless]

/-- The pipeline's scorecard computation never takes the out-of-range branch:
it returns a scorecard of the document's length. -/
theorem hl_scorecard_ok (doc query : Str) :
    ∃ sc, hl_scorecard doc query = .ok sc ∧ sc.length = doc.length := by
  have hlen : (build_scorecard (some doc) (some 0)).length = doc.length := by
    simp [build_scorecard]
  obtain ⟨sc1, h1, hl1⟩ := score_index_ok (query_match_score_fn (hl_query_stems doc query))
    (hl_stem_index doc query) (build_scorecard (some doc) (some 0))
    (fun p hp loc hloc => hlen ▸ hl_stem_index_bounded doc query p hp loc hloc)
  obtain ⟨sc2, h2, hl2⟩ := score_index_ok sentiment_score_fn
    (hl_stem_index doc query) sc1
    (fun p hp loc hloc => (hl1.trans hlen) ▸ hl_stem_index_bounded doc query p hp loc hloc)
  refine ⟨sc2, ?_, hl2.trans (hl1.trans hlen)⟩
  unfold hl_scorecard
  simp only [h1]
  exact h2

/-- C10: for arguments produced by the pipeline itself — a scorecard of
length equal to the document's character count and a stem index built from a
token list whose concatenation is the document, with each token's stem
computed by `english_suffix_stemmer` — every scorecard position written by
`score_index` lies within the array bounds, because each recorded range
starts inside the document and the stem's length never exceeds its token's
length; the out-of-bounds branch is unreachable under this precondition. -/
theorem C10_score_index_in_bounds (doc : Str) (tokens : List Str)
    (hconcat : tokens.flatten = doc) (lookup : Str → Option Str)
    (hlk : ∀ t s, lookup t = some s → s = english_suffix_stemmer (some t))
    (score_fn : Str → ℚ) :
    ∃ sc2,
      score_index (build_stem_index (some tokens) (some lookup))
          (build_scorecard (some doc) (some 0)) score_fn = .ok sc2 ∧
        sc2.length = doc.length := by
  have hlen : (build_scorecard (some doc) (some 0)).length = doc.length := by
    simp [build_scorecard]
  have hbound : ∀ p ∈ build_stem_index (some tokens) (some lookup), ∀ loc ∈ p.2,
      loc.1 + p.1.length ≤ doc.length := by
    unfold build_stem_index
    refine build_stem_index_aux_bounded _ ?_ tokens 0 [] doc.length (by simp) ?_
    · intro t s hs
      rw [hlk t s hs]
      exact stemmer_length_le t
    · rw [Nat.zero_add, ← hconcat, List.length_flatten]
  obtain ⟨sc2, h2, hl2⟩ := score_index_ok score_fn _ _
    (fun p hp loc hloc => hlen ▸ hbound p hp loc hloc)
  exact ⟨sc2, h2, hl2.trans hlen⟩

/-- Witness for C10 at a concrete document and token list. -/
theorem C10_score_index_in_bounds_witness :
    ∃ sc2,
      score_index
          (build_stem_index (some [s2l "ab", s2l "!"])
            (some fun t => some (english_suffix_stemmer (some t))))
          (build_scorecard (some (s2l "ab!")) (some 0)) (fun _ => 1) = .ok sc2 ∧
        sc2.length = (s2l "ab!").length :=
  C10_score_index_in_bounds (s2l "ab!") [s2l "ab", s2l "!"] (by decide)
    (fun t => some (english_suffix_stemmer (some t)))
    (fun t s hs => (Option.some.inj hs).symm) (fun _ => 1)

/-! ### Ellipsis policy (C8) -/

/-- The first document token is never a sentence terminal: it is a (possibly
empty) run of word characters, while every terminal is a single non-word
character. -/
theorem doc_tokens_head_not_terminal (doc : Str) :
    (hl_doc_tokens doc).getD 0 [] ∉ sentence_terminals := by
  unfold hl_doc_tokens tokenize
  by_cases h : doc.isEmpty
  · rw [if_pos h]
    decide
  · rw [if_neg h]
    intro hmem
    have hw := splitCapture_head_word doc
    have hgd : (splitCapture doc).getD 0 [] = (splitCapture doc).headD [] := by
      cases splitCapture doc <;> rfl
    rw [hgd] at hmem
    have hterm : ∀ u ∈ sentence_terminals, ∃ ch, u = [ch] ∧ ¬ isWordChar ch := by
      intro u hu
      have hu4 : u = ['.'] ∨ u = [';'] ∨ u = ['!'] ∨ u = ['?'] := by
        simpa [sentence_terminals, s2l] using hu
      rcases hu4 with rfl | rfl | rfl | rfl
      · exact ⟨_, rfl, by decide⟩
      · exact ⟨_, rfl, by decide⟩
      · exact ⟨_, rfl, by decide⟩
      · exact ⟨_, rfl, by decide⟩
    obtain ⟨ch, hch, hnw⟩ := hterm _ hmem
    rw [hch] at hw
    exact hnw (hw ch (List.mem_singleton_self _))

/-- C8: `highlight_doc` prepends the ellipsis marker exactly when the token
immediately preceding the snippet's first token is a sentence terminator
(the code's guard `starting_token_index > 1` agrees with mere existence of a
preceding token because token 0, a word-character run, is never a
terminator), and appends the ellipsis marker exactly when the token
immediately following the snippet's last token exists and is not a sentence
terminator. -/
theorem C8_ellipsis_policy (doc : Str) (s e : ℕ) :
    (pre_ellipsis (hl_doc_tokens doc) s = true ↔
        1 ≤ s ∧ (hl_doc_tokens doc).getD (s - 1) [] ∈ sentence_terminals) ∧
      (post_ellipsis (hl_doc_tokens doc) e = true ↔
        e + 1 < (hl_doc_tokens doc).length ∧
          (hl_doc_tokens doc).getD (e + 1) [] ∉ sentence_terminals) := by
  constructor
  · unfold pre_ellipsis
    simp only [Bool.and_eq_true, decide_eq_true_eq]
    constructor
    · rintro ⟨h1, h2⟩
      exact ⟨by omega, h2⟩
    · rintro ⟨h1, h2⟩
      refine ⟨?_, h2⟩
      rcases Nat.lt_or_ge 1 s with h | h
      · exact h
      · have hs1 : s = 1 := by omega
        rw [hs1] at h2
        simp only [Nat.sub_self] at h2
        exact absurd h2 (doc_tokens_head_not_terminal doc)
  · unfold post_ellipsis
    simp only [Bool.and_eq_true, decide_eq_true_eq]

/-- Witness for C8 at a concrete document: in "ab. cd" the snippet start
index 2 has the terminal "." immediately before it, so the ellipsis is
prepended; start index 4 is preceded by the non-terminal " ", so it is
not. -/
theorem C8_ellipsis_policy_witness :
    pre_ellipsis (hl_doc_tokens (s2l "ab. cd")) 2 = true ∧
      post_ellipsis (hl_doc_tokens (s2l "ab. cd")) 2 = true :=
  ⟨(C8_ellipsis_policy (s2l "ab. cd") 2 0).1.mpr ⟨by decide, by decide⟩,
   (C8_ellipsis_policy (s2l "ab. cd") 0 2).2.mpr ⟨by decide, by decide⟩⟩

/-! ### The ok path of highlight_doc (C1) -/

theorem mem_insert_desc {a w : ℚ × ℕ × ℕ} {l : List (ℚ × ℕ × ℕ)} :
    a ∈ insert_desc w l ↔ a = w ∨ a ∈ l := by
  induction l with
  | nil => simp [insert_desc]
  | cons x xs ih =>
    simp only [insert_desc]
    by_cases h : w.1 < x.1
    · rw [if_pos h]
      simp only [List.mem_cons, ih]
      tauto
    · rw [if_neg h]
      simp only [List.mem_cons]

theorem mem_sort_windows {a : ℚ × ℕ × ℕ} {l : List (ℚ × ℕ × ℕ)} :
    a ∈ sort_windows l ↔ a ∈ l := by
  induction l with
  | nil => simp [sort_windows]
  | cons w ws ih =>
    simp only [sort_windows, mem_insert_desc, ih, List.mem_cons]

theorem enclosing_from_isSome :
    ∀ (tokens : List Str) (d base : ℕ), tokens ≠ [] → base ≤ d →
      d ≤ base + (tokens.map List.length).sum →
      ∃ i, enclosing_from d base tokens = some i := by
  have hex : ∀ (tokens : List Str) (d base : ℕ), tokens ≠ [] → base ≤ d →
      d ≤ base + (tokens.map List.length).sum →
      ∃ i ∈ List.range tokens.length,
        (base + token_start tokens i ≤ d ∧
          d ≤ base + token_start tokens i + (tokens.getD i []).length) := by
    intro tokens
    induction tokens with
    | nil => intro d base hne; exact absurd rfl hne
    | cons t rest ih =>
      intro d base _ hbase hsum
      simp only [List.map_cons, List.sum_cons] at hsum
      by_cases hd : d ≤ base + t.length
      · refine ⟨0, by simp, ?_, ?_⟩
        · simpa [token_start] using hbase
        · simpa [token_start] using hd
      · have hrest : rest ≠ [] := by
          rintro rfl
          simp at hsum
          omega
        obtain ⟨i, hi, h1, h2⟩ := ih d (base + t.length) hrest (by omega) (by omega)
        refine ⟨i + 1, ?_, ?_, ?_⟩
        · simp only [List.mem_range, List.length_cons] at hi ⊢
          omega
        · rw [token_start_cons_succ]
          omega
        · rw [token_start_cons_succ]
          simp only [List.getD_cons_succ]
          omega
  intro tokens d base hne hbase hsum
  obtain ⟨i, hi, hcond⟩ := hex tokens d base hne hbase hsum
  have : (enclosing_from d base tokens).isSome := by
    unfold enclosing_from
    rw [List.find?_isSome]
    exact ⟨i, hi, by simpa using hcond⟩
  obtain ⟨j, hj⟩ := Option.isSome_iff_exists.mp this
  exact ⟨j, hj⟩

theorem enclosing_spec_isSome {tokens : List Str} {d : ℕ} (hne : tokens ≠ [])
    (hd : d ≤ (tokens.map List.length).sum) :
    ∃ i, enclosing_token_spec d tokens = some i :=
  enclosing_from_isSome tokens d 0 hne (Nat.zero_le d) (by omega)

/-- The total length of the document's tokens is the document's length. -/
theorem hl_doc_tokens_total_length (doc : Str) :
    ((hl_doc_tokens doc).map List.length).sum = doc.length := by
  rw [← List.length_flatten]
  unfold hl_doc_tokens
  rw [C3_tokenize_doc_lossless]

theorem hl_doc_tokens_ne_nil {doc : Str} (h : doc ≠ []) : hl_doc_tokens doc ≠ [] := by
  unfold hl_doc_tokens tokenize
  rw [if_neg (by simpa using h)]
  exact splitCapture_ne_nil doc

/-- For any document longer than the window size, `highlight_doc` reaches the
markup step: it returns the joined markup buffer of the snippet token range
for some boundary token indices. -/
theorem highlight_doc_ok_form (doc query : Str) (h20 : 20 < doc.length) :
    ∃ s e, highlight_doc doc query =
      .ok ((markup_buffer (hl_lookup doc query) (hl_query_stems doc query)
        (hl_token_range (hl_doc_tokens doc) s e)).flatten) := by
  obtain ⟨sc, hsc, hlen⟩ := hl_scorecard_ok doc query
  obtain ⟨top, rest, htop⟩ : ∃ top rest, sort_windows (get_window_scores sc 20) = top :: rest := by
    cases h : sort_windows (get_window_scores sc 20) with
    | nil =>
      have hW : get_window_scores sc 20 = [] := (sort_windows_eq_nil_iff _).mp h
      rw [get_window_scores_eq] at hW
      have : sc.length - 20 ≠ 0 := by omega
      simp [List.range_eq_nil, this] at hW
    | cons a b => exact ⟨a, b, rfl⟩
  have htopW : top ∈ get_window_scores sc 20 := by
    have : top ∈ sort_windows (get_window_scores sc 20) := by
      rw [htop]; exact List.mem_cons_self _ _
    exact mem_sort_windows.mp this
  have hbounds : top.2.1 < doc.length ∧ top.2.2 < doc.length := by
    rw [get_window_scores_eq] at htopW
    obtain ⟨k, hk, hfk⟩ := List.mem_map.mp htopW
    simp only [List.mem_range] at hk
    rw [← hfk]
    simp only []
    omega
  have htokne : hl_doc_tokens doc ≠ [] := hl_doc_tokens_ne_nil (by
    intro h; rw [h] at h20; simp at h20)
  obtain ⟨s0, hs0⟩ := enclosing_spec_isSome htokne
    (show top.2.1 ≤ _ by rw [hl_doc_tokens_total_length]; omega)
  obtain ⟨e0, he0⟩ := enclosing_spec_isSome htokne
    (show top.2.2 ≤ _ by rw [hl_doc_tokens_total_length]; omega)
  refine ⟨walk_spec_bwd (hl_doc_tokens doc) sentence_terminals s0,
    walk_spec_fwd (hl_doc_tokens doc) sentence_terminals e0, ?_⟩
  unfold highlight_doc
  simp only [hsc, htop, find_best_bwd_eq, find_best_fwd_eq, hs0, he0, Option.map_some']

/-- With an empty query there are no query stems, so the markup loop wraps
nothing: every token is emitted unmodified. -/
theorem markup_buffer_no_stems (lookup : Str → Option Str) (tokens : List Str) :
    markup_buffer lookup [] tokens = tokens := by
  induction tokens with
  | nil => rfl
  | cons t ts ih =>
    unfold markup_buffer at ih ⊢
    simp only [List.map_cons, List.flatten_cons, ih]
    unfold markup_one
    cases lookup t <;> simp

/-- Every token of the snippet range is the ellipsis marker or one of the
document's tokens. -/
theorem hl_token_range_mem {tokens : List Str} {s e : ℕ} {u : Str}
    (hu : u ∈ hl_token_range tokens s e) : u = ELLIPSIS ∨ u ∈ tokens := by
  have hslice : ∀ v, v ∈ (tokens.drop s).take (e + 1 - s) → v ∈ tokens := fun v hv =>
    ((List.take_sublist _ _).trans (List.drop_sublist _ _)).subset hv
  unfold hl_token_range at hu
  by_cases h1 : pre_ellipsis tokens s <;> by_cases h2 : post_ellipsis tokens e <;>
    simp only [h1, h2, if_true, if_false, Bool.false_eq_true] at hu
  · rcases List.mem_append.mp hu with hu | hu
    · rcases List.mem_cons.mp hu with rfl | hu
      · exact Or.inl rfl
      · exact Or.inr (hslice _ hu)
    · rw [List.mem_singleton.mp hu]
      exact Or.inl rfl
  · rcases List.mem_cons.mp hu with rfl | hu
    · exact Or.inl rfl
    · exact Or.inr (hslice _ hu)
  · rcases List.mem_append.mp hu with hu | hu
    · exact Or.inr (hslice _ hu)
    · rw [List.mem_singleton.mp hu]
      exact Or.inl rfl
  · exact Or.inr (hslice _ hu)

/-- No document token and no ellipsis marker equals a highlight marker. -/
theorem marker_not_in_range (doc : Str) (s e : ℕ) :
    HIGHLIGHT ∉ hl_token_range (hl_doc_tokens doc) s e ∧
      ENDHIGHLIGHT ∉ hl_token_range (hl_doc_tokens doc) s e := by
  have hshape : ∀ t ∈ hl_doc_tokens doc,
      (∀ ch ∈ t, isWordChar ch) ∨ (∃ ch, t = [ch] ∧ ¬ isWordChar ch) := by
    unfold hl_doc_tokens tokenize
    by_cases h : doc.isEmpty
    · rw [if_pos h]; intro t ht; simp at ht
    · rw [if_neg h]; exact splitCapture_token_shape doc
  have hmark : ∀ m, m = HIGHLIGHT ∨ m = ENDHIGHLIGHT → ∀ t ∈ hl_doc_tokens doc, t ≠ m := by
    intro m hm t ht heq
    subst heq
    rcases hshape t ht with hw | ⟨ch, hch, hnw⟩
    · rcases hm with rfl | rfl
      · exact absurd (hw '[' (by decide)) (by decide)
      · exact absurd (hw '[' (by decide)) (by decide)
    · rcases hm with rfl | rfl <;>
        (have hl13 := congrArg List.length hch
         simp [HIGHLIGHT, ENDHIGHLIGHT, s2l] at hl13)
  constructor <;> intro hmem <;> rcases hl_token_range_mem hmem with he | ht
  · exact absurd he.symm (by decide)
  · exact hmark HIGHLIGHT (Or.inl rfl) _ ht rfl
  · exact absurd he.symm (by decide)
  · exact hmark ENDHIGHLIGHT (Or.inr rfl) _ ht rfl

/-- C1 counterexample: on the empty document (and a nonempty query) the
function raises an IndexError (`scored_windows[0]` on the empty window
list) instead of returning an empty or marker-free string. -/
theorem C1_cex_empty_doc_raises :
    highlight_doc [] (s2l "x") = .error "list index out of range" := by
  with_unfolding_all rfl

/-- C1 amended: `highlight_doc` raises an IndexError whenever the document's
length is at most the window size 20 (no window is generated and
`scored_windows[0]` fails), including the empty document, instead of
degrading to a fallback; for documents longer than 20 characters it returns
a snippet string, and with an empty query that snippet is built with no
highlight markers inserted. -/
theorem C1_amended_short_doc_raises (doc query : Str) :
    (doc.length ≤ 20 → highlight_doc doc query = .error "list index out of range") ∧
      (20 < doc.length → ∃ s, highlight_doc doc query = .ok s) ∧
      (20 < doc.length → query = [] →
        ∃ toks : List Str, highlight_doc doc query = .ok toks.flatten ∧
          HIGHLIGHT ∉ toks ∧ ENDHIGHLIGHT ∉ toks) := by
  refine ⟨?_, ?_, ?_⟩
  · intro hle
    obtain ⟨sc, hsc, hlen⟩ := hl_scorecard_ok doc query
    have hW : get_window_scores sc 20 = [] := by
      rw [get_window_scores_eq]
      have h0 : sc.length - 20 = 0 := by omega
      simp [h0]
    unfold highlight_doc
    simp only [hsc, hW]
    rfl
  · intro h20
    obtain ⟨s, e, h⟩ := highlight_doc_ok_form doc query h20
    exact ⟨_, h⟩
  · intro h20 hq
    subst hq
    obtain ⟨s, e, h⟩ := highlight_doc_ok_form doc [] h20
    rw [show hl_query_stems doc [] = [] from rfl, markup_buffer_no_stems] at h
    exact ⟨hl_token_range (hl_doc_tokens doc) s e, h,
      (marker_not_in_range doc s e).1, (marker_not_in_range doc s e).2⟩

/-- Witness for C1 at concrete documents: a 7-character document raises, a
23-character document returns a snippet, and with an empty query the
23-character document's snippet is marker-free. -/
theorem C1_amended_short_doc_raises_witness :
    highlight_doc (s2l "tiny do") (s2l "q") = .error "list index out of range" ∧
      (∃ s, highlight_doc (s2l "aaaa bbbb cccc dddd ee.") (s2l "q") = .ok s) ∧
      (∃ toks : List Str, highlight_doc (s2l "aaaa bbbb cccc dddd ee.") [] = .ok toks.flatten ∧
        HIGHLIGHT ∉ toks ∧ ENDHIGHLIGHT ∉ toks) :=
  ⟨(C1_amended_short_doc_raises (s2l "tiny do") (s2l "q")).1 (by decide),
   (C1_amended_short_doc_raises (s2l "aaaa bbbb cccc dddd ee.") (s2l "q")).2.1 (by decide),
   (C1_amended_short_doc_raises (s2l "aaaa bbbb cccc dddd ee.") []).2.2 (by decide) rfl⟩

/-! ### Highlight marking (C4) -/

theorem hl_lookup_of_key {doc query t : Str} (ht : t ∈ hl_keys doc query) :
    hl_lookup doc query t = some (english_suffix_stemmer (some t)) := by
  unfold hl_lookup stem_lookup_get
  rw [if_pos ht]

/-- C4 counterexample: for the document "aaaa bbbb cccc dddd ee." and query
"is", the query's only token stems to the empty string, so the empty stem
belongs to the query stem set, and the separator token " " — whose stem is
empty — is wrapped in highlight markers by the markup step, as the full
output shows; this contradicts both the claim's "non-empty" restriction on
the query stem set and its assertion that empty-stem tokens are never
highlighted. -/
theorem C4_cex_empty_stem_highlighted :
    english_suffix_stemmer (some [' ']) = [] ∧
      hl_query_stems (s2l "aaaa bbbb cccc dddd ee.") (s2l "is") = [[]] ∧
      markup_one (hl_lookup (s2l "aaaa bbbb cccc dddd ee.") (s2l "is"))
          (hl_query_stems (s2l "aaaa bbbb cccc dddd ee.") (s2l "is")) [' '] =
        [HIGHLIGHT, [' '], ENDHIGHLIGHT] ∧
      highlight_doc (s2l "aaaa bbbb cccc dddd ee.") (s2l "is") =
        .ok (s2l ("aaaa[[HIGHLIGHT]] [[ENDHIGHLIGHT]]bbbb[[HIGHLIGHT]] " ++
          "[[ENDHIGHLIGHT]]cccc[[HIGHLIGHT]] [[ENDHIGHLIGHT]]dddd[[HIGHLIGHT]] " ++
          "[[ENDHIGHLIGHT]]ee....")) :=
  ⟨by with_unfolding_all rfl, by with_unfolding_all rfl, by with_unfolding_all rfl,
    by with_unfolding_all rfl⟩

/-- C4 amended: in the snippet returned by `highlight_doc`, a token is
wrapped in highlight markers iff the stem lookup defines a stem for it (it
is a document or query token) and that stem — possibly empty — belongs to
the query stem set, which contains exactly the stems of the query's
nonempty tokens, including the empty stem when a query token reduces to a
stop word. -/
theorem C4_amended_markup_condition (doc query t : Str) :
    (∀ st, st ∈ hl_query_stems doc query ↔
        ∃ q ∈ hl_query_tokens query, english_suffix_stemmer (some q) = st) ∧
      markup_one (hl_lookup doc query) (hl_query_stems doc query) t =
        (if t ∈ hl_keys doc query ∧
            english_suffix_stemmer (some t) ∈ hl_query_stems doc query
          then [HIGHLIGHT, t, ENDHIGHLIGHT] else [t]) := by
  constructor
  · intro st
    unfold hl_query_stems
    rw [List.mem_map]
    constructor
    · rintro ⟨q, hq, hst⟩
      refine ⟨q, hq, ?_⟩
      rw [hl_lookup_of_key (show q ∈ hl_keys doc query from
        List.mem_append_right _ hq)] at hst
      simpa using hst
    · rintro ⟨q, hq, hst⟩
      refine ⟨q, hq, ?_⟩
      rw [hl_lookup_of_key (show q ∈ hl_keys doc query from
        List.mem_append_right _ hq)]
      simpa using hst
  · by_cases hk : t ∈ hl_keys doc query
    · unfold markup_one
      simp only [hl_lookup_of_key hk]
      by_cases hm : english_suffix_stemmer (some t) ∈ hl_query_stems doc query
      · rw [if_pos hm, if_pos ⟨hk, hm⟩]
      · rw [if_neg hm, if_neg (by tauto)]
    · unfold markup_one hl_lookup stem_lookup_get
      rw [if_neg hk, if_neg (by tauto)]

/-- Witness for the amended C4 at a concrete separator token with empty
stem. -/
theorem C4_amended_markup_condition_witness :
    markup_one (hl_lookup (s2l "aaaa bbbb cccc dddd ee.") (s2l "is"))
        (hl_query_stems (s2l "aaaa bbbb cccc dddd ee.") (s2l "is")) [' '] =
      (if [' '] ∈ hl_keys (s2l "aaaa bbbb cccc dddd ee.") (s2l "is") ∧
          english_suffix_stemmer (some [' ']) ∈
            hl_query_stems (s2l "aaaa bbbb cccc dddd ee.") (s2l "is")
        then [HIGHLIGHT, [' '], ENDHIGHLIGHT] else [[' ']]) :=
  (C4_amended_markup_condition (s2l "aaaa bbbb cccc dddd ee.") (s2l "is") [' ']).2

/-! ### Scenario scorecard (C5) -/

/-- C5 counterexample: in the scenario pipeline for
"This ham sammy is the bomb!" with constant weight 3.3, the characters of
"the" (indices 18-20) and the punctuation character '!' (index 26)
accumulate 3.3, not zero: 'the' is not in the stemmer's stop-word set and
'!' is indexed under the stem '!'. -/
theorem C5_cex_the_and_bang_scored :
    score_index
        (build_stem_index (some (hl_doc_tokens (s2l "This ham sammy is the bomb!")))
          (some (stem_lookup_get (hl_doc_tokens (s2l "This ham sammy is the bomb!")))))
        (build_scorecard (some (s2l "This ham sammy is the bomb!")) (some 0))
        (fun _ => 33 / 10) =
      .ok [33/10, 33/10, 33/10, 0, 0, 33/10, 33/10, 33/10, 0, 33/10, 33/10, 33/10,
        33/10, 33/10, 0, 0, 0, 0, 33/10, 33/10, 33/10, 0, 33/10, 33/10, 33/10,
        33/10, 33/10] ∧
      english_suffix_stemmer (some (s2l "the")) = s2l "the" ∧
      english_suffix_stemmer (some (s2l "!")) = s2l "!" ∧
      (33 : ℚ) / 10 ≠ 0 :=
  ⟨by with_unfolding_all rfl, by with_unfolding_all rfl, by with_unfolding_all rfl,
    by norm_num⟩

/-- C5 amended: in the scenario pipeline for "This ham sammy is the bomb!"
with any constant weight, exactly the character positions covered by an
indexed stem accumulate the weight once: the stems 'thi' (0-2), 'ham'
(5-7), 'sammy' (9-13), 'the' (18-20), 'bomb' (22-25) and '!' (26); the stop
word "is", the whitespace separators, and characters beyond a stem's length
(the trailing 's' of "This") accumulate zero. -/
theorem C5_amended_scenario_scorecard (w : ℚ) :
    score_index
        (build_stem_index (some (hl_doc_tokens (s2l "This ham sammy is the bomb!")))
          (some (stem_lookup_get (hl_doc_tokens (s2l "This ham sammy is the bomb!")))))
        (build_scorecard (some (s2l "This ham sammy is the bomb!")) (some 0))
        (fun _ => w) =
      .ok [w, w, w, 0, 0, w, w, w, 0, w, w, w, w, w, 0, 0, 0, 0, w, w, w, 0,
        w, w, w, w, w] := by
  have hidx : build_stem_index (some (hl_doc_tokens (s2l "This ham sammy is the bomb!")))
        (some (stem_lookup_get (hl_doc_tokens (s2l "This ham sammy is the bomb!")))) =
      [(s2l "thi", [(0, 4)]), (s2l "ham", [(5, 8)]), (s2l "sammy", [(9, 14)]),
        (s2l "the", [(18, 21)]), (s2l "bomb", [(22, 26)]), (s2l "!", [(26, 27)])] := by
    with_unfolding_all rfl
  have hcard : build_scorecard (some (s2l "This ham sammy is the bomb!")) (some 0) =
      [0, 0, 0, 0, 0, 0, 0, 0, 0, 0, 0, 0, 0, 0, 0, 0, 0, 0, 0, 0, 0, 0, 0, 0, 0,
        0, 0] := by
    with_unfolding_all rfl
  rw [hidx, hcard]
  norm_num [score_index, score_locations, bump_range, except_ok_bind, s2l]

end Highlighter
